import Mathlib

/-!
Shallow embedding of the order-interpretation pipeline of `src/main.py`
(a bakery order-taking assistant).  Strings are modelled as `List Char`
and the stateful loop of `calcular_pedido_completo` as a fold carrying the
running total, the line-item list and the list of warned (unmatched)
descriptions.

Currency amounts: the extraction pattern of line 58 admits exactly two
fractional digits, so every amount the program ever manipulates denotes an
integer number of centavos; quantities are integers, subtotals and sums of
subtotals therefore stay integer numbers of centavos.  The embedding
computes with the exact value in centavos (`ℕ`) and interprets it as the
rational `c / 100` (`precoQ`) in the statements, which is the exact
decimal arithmetic the specification describes; binary floating point
round-off of Python `float` is not modelled.

The fuzzy matcher `difflib.get_close_matches` / `SequenceMatcher` (Python
standard library, called at line 155 of `src/main.py`) is embedded below
with `isjunk = None`; the `autojunk` heuristic only marks characters when
the second sequence has at least 200 characters, which never happens for
the order phrases this program compares, so it is inert and not modelled.
-/

/-- Python `str.isspace`-style whitespace test used by `\s` and `str.strip`,
restricted to the ASCII whitespace characters (space, `\t`, `\n`, `\v`,
`\f`, `\r`); the non-ASCII Unicode whitespace is outside the repertoire the
program handles. -/
def pyIsSpace (c : Char) : Bool := c == ' ' || (9 ≤ c.toNat && c.toNat ≤ 13)

/-- ASCII decimal digit test, the `\d` class of the patterns in
`src/main.py` restricted to `0`-`9` (code points 48-57). -/
def pyIsDigit (c : Char) : Bool := 48 ≤ c.toNat && c.toNat ≤ 57

/-- Python `str.strip()` with no argument: drop whitespace at both ends. -/
def pyStrip (l : List Char) : List Char :=
  ((l.dropWhile pyIsSpace).reverse.dropWhile pyIsSpace).reverse

/-- Numeric value of a list of ASCII digits, as Python `int` parses it. -/
def digitsToNat (ds : List Char) : ℕ :=
  ds.foldl (fun n c => 10 * n + (c.toNat - 48)) 0

/-- Helper for `splitLines`: accumulate the current line (reversed) and cut
at line boundaries. -/
def splitLinesGo (acc : List Char) : List Char → List (List Char)
  | [] => if acc.isEmpty then [] else [acc.reverse]
  | '\r' :: '\n' :: rest => acc.reverse :: splitLinesGo [] rest
  | '\r' :: rest => acc.reverse :: splitLinesGo [] rest
  | '\n' :: rest => acc.reverse :: splitLinesGo [] rest
  | c :: rest => splitLinesGo (c :: acc) rest

/-- Python `str.splitlines()` for the `\n`, `\r\n` and `\r` boundaries (the
only ones occurring in the extracted document text); a final segment after
the last boundary is emitted only when non-empty, as in Python. -/
def splitLines (l : List Char) : List (List Char) := splitLinesGo [] l

/-- Helper for `splitBar`. -/
def splitBarGo (acc : List Char) : List Char → List (List Char)
  | [] => [acc.reverse]
  | '|' :: rest => acc.reverse :: splitBarGo [] rest
  | c :: rest => splitBarGo (c :: acc) rest

/-- Python `line.split('|')` (line 65 of `src/main.py`): split on every
vertical bar, keeping empty segments. -/
def splitBar (l : List Char) : List (List Char) := splitBarGo [] l

/-- Characters after the last newline of `l` (the furthest-left start
position available to the `(.+?)` group of `re.search`, since `.` does not
match a newline). -/
def lastSeg (l : List Char) : List Char :=
  (l.reverse.takeWhile (fun c => c ≠ '\n')).reverse

/-- Tail of the product pattern `\s*—\s*R\$\s*(\d+[,.]\d{2})` of line 58 of
`src/main.py`, applied at a candidate end-of-name position.  Each `\s*` and
the `\d+` are maximal-munch: backtracking them cannot help because the
character class required next (the em dash, `R`, a digit, `[,.]`) is
disjoint from the class just repeated.  On success it returns the parsed
amount: Python replaces the `,` by `.` and calls `float`; the two-decimal
amount is represented by its exact value in centavos. -/
def tailMatch (u : List Char) : Option ℕ :=
  match u.dropWhile pyIsSpace with
  | '—' :: v =>
    match v.dropWhile pyIsSpace with
    | 'R' :: '$' :: w =>
      let w1 := w.dropWhile pyIsSpace
      let ds := w1.takeWhile pyIsDigit
      if ds.isEmpty then none
      else
        match w1.drop ds.length with
        | sep :: d1 :: d2 :: _ =>
          if (sep = ',' ∨ sep = '.') ∧ pyIsDigit d1 ∧ pyIsDigit d2 then
            some (digitsToNat ds * 100 + (10 * (d1.toNat - 48) + (d2.toNat - 48)))
          else none
        | _ => none
    | _ => none
  | _ => none

/-- Scan of `re.search` for the pattern of line 58: try each end-of-name
position `j` from `1` upward (the lazy `(.+?)` group is non-empty and, for
the leftmost overall start, takes the least such `j`); `group(1)` is then
the text from the character after the last newline up to `j`.  `fuel`
counts the remaining candidate positions. -/
def findMatchFrom (s : List Char) : ℕ → ℕ → Option (List Char × ℕ)
  | _, 0 => none
  | j, fuel + 1 =>
    if j ≤ s.length then
      match (if s.getD (j - 1) 'a' ≠ '\n' then tailMatch (s.drop j) else none) with
      | some preco => some (pyStrip (lastSeg (s.take j)), preco)
      | none => findMatchFrom s (j + 1) fuel
    else none

/-- Model of `re.search(pattern, part)` with
`pattern = r"(.+?)\s*—\s*R\$\s*(\d+[,.]\d{2})"` followed by
`match.group(1).strip()` and the amount conversion of lines 70-74 of
`src/main.py`: the leftmost match, with the name group lazily minimal. -/
def reSearchProduto (s : List Char) : Option (List Char × ℕ) :=
  findMatchFrom s 1 s.length

/-- A catalog entry: product name (display form) and unit price in
centavos. -/
abbrev Produto : Type := List Char × ℕ

/-- The rational a centavo amount denotes; catalog prices, subtotals and
totals are reported on this scale in the claims. -/
def precoQ (c : ℕ) : ℚ := (c : ℚ) / 100

/-- Embedding of `extract_products` (lines 46-80 of `src/main.py`): iterate
the lines of the document text, split each line on `|`, and for each
stripped segment append the entry matched by the product pattern, if any.
The `float` conversion cannot fail on the matched text, so the
`try/except ValueError` of lines 73-78 adds nothing. -/
def extract_products (pdf_text : List Char) : List Produto :=
  (splitLines pdf_text).foldl
    (fun produtos line =>
      (splitBar line).foldl
        (fun produtos part =>
          match reSearchProduto (pyStrip part) with
          | some e => produtos ++ [e]
          | none => produtos)
        produtos)
    []

/-- Restatement of the catalog-extraction algorithm in the shape the spec
describes it (line-by-line, bars first, segments left to right, failures
skipped); claim C2 compares it with `extract_products` as translated from
the source. -/
def extractCatalogSpec (pdf_text : List Char) : List Produto :=
  (splitLines pdf_text).flatMap
    (fun line => (splitBar line).filterMap (fun part => reSearchProduto (pyStrip part)))

/-- Association-list lookup used for the case-folding and decomposition
tables (first matching key wins; the tables have distinct keys). -/
def alook {α : Type} : List (Char × α) → Char → Option α
  | [], _ => none
  | (k, v) :: rest, c => if c = k then some v else alook rest c

/-- Lower-casing table of Python `str.lower()` for the repertoire the
program handles: ASCII letters and the Latin-1 accented letters appearing
in Portuguese text.  Characters outside the table are unchanged. -/
def lowerTable : List (Char × Char) :=
  [('A', 'a'), ('B', 'b'), ('C', 'c'), ('D', 'd'), ('E', 'e'), ('F', 'f'),
   ('G', 'g'), ('H', 'h'), ('I', 'i'), ('J', 'j'), ('K', 'k'), ('L', 'l'),
   ('M', 'm'), ('N', 'n'), ('O', 'o'), ('P', 'p'), ('Q', 'q'), ('R', 'r'),
   ('S', 's'), ('T', 't'), ('U', 'u'), ('V', 'v'), ('W', 'w'), ('X', 'x'),
   ('Y', 'y'), ('Z', 'z'),
   ('À', 'à'), ('Á', 'á'), ('Â', 'â'), ('Ã', 'ã'), ('Ä', 'ä'),
   ('Ç', 'ç'), ('È', 'è'), ('É', 'é'), ('Ê', 'ê'), ('Ë', 'ë'),
   ('Ì', 'ì'), ('Í', 'í'), ('Î', 'î'), ('Ï', 'ï'), ('Ñ', 'ñ'),
   ('Ò', 'ò'), ('Ó', 'ó'), ('Ô', 'ô'), ('Õ', 'õ'), ('Ö', 'ö'),
   ('Ù', 'ù'), ('Ú', 'ú'), ('Û', 'û'), ('Ü', 'ü')]

/-- Python `str.lower()`, character by character, over `lowerTable`. -/
def pyLower (c : Char) : Char := (alook lowerTable c).getD c

/-- Canonical decomposition (Unicode NFD) table for the lower-case accented
Latin letters the program can see after `str.lower()`: base letter followed
by the combining mark (acute 0x301, grave 0x300, circumflex 0x302, tilde
0x303, diaeresis 0x308, cedilla 0x327).  Each decomposition has a single
combining mark, so no canonical reordering is needed.  Characters outside
the table are non-decomposable and left as themselves. -/
def nfdTable : List (Char × List Char) :=
  [('à', ['a', Char.ofNat 0x300]), ('á', ['a', Char.ofNat 0x301]),
   ('â', ['a', Char.ofNat 0x302]), ('ã', ['a', Char.ofNat 0x303]),
   ('ä', ['a', Char.ofNat 0x308]),
   ('ç', ['c', Char.ofNat 0x327]),
   ('è', ['e', Char.ofNat 0x300]), ('é', ['e', Char.ofNat 0x301]),
   ('ê', ['e', Char.ofNat 0x302]), ('ë', ['e', Char.ofNat 0x308]),
   ('ì', ['i', Char.ofNat 0x300]), ('í', ['i', Char.ofNat 0x301]),
   ('î', ['i', Char.ofNat 0x302]), ('ï', ['i', Char.ofNat 0x308]),
   ('ñ', ['n', Char.ofNat 0x303]),
   ('ò', ['o', Char.ofNat 0x300]), ('ó', ['o', Char.ofNat 0x301]),
   ('ô', ['o', Char.ofNat 0x302]), ('õ', ['o', Char.ofNat 0x303]),
   ('ö', ['o', Char.ofNat 0x308]),
   ('ù', ['u', Char.ofNat 0x300]), ('ú', ['u', Char.ofNat 0x301]),
   ('û', ['u', Char.ofNat 0x302]), ('ü', ['u', Char.ofNat 0x308])]

/-- NFD decomposition of one character. -/
def nfdChar (c : Char) : List Char := (alook nfdTable c).getD [c]

/-- Unicode general category `Mn` (non-spacing combining mark), which for
the repertoire in use is the Combining Diacritical Marks block. -/
def isMn (c : Char) : Bool := 0x300 ≤ c.toNat && c.toNat ≤ 0x36F

/-- Embedding of `remover_acentos` (lines 85-88 of `src/main.py`):
`unicodedata.normalize('NFD', texto)` followed by dropping the characters
of category `Mn`. -/
def remover_acentos (texto : List Char) : List Char :=
  (texto.flatMap nfdChar).filter (fun c => !isMn c)

/-- The composition `remover_acentos(x.lower())` that
`calcular_pedido_completo` applies to catalog names (line 128) and to the
order text (line 136): the normalization form of the spec. -/
def normalizar (texto : List Char) : List Char :=
  remover_acentos (texto.map pyLower)

/-- Cell admissibility of `find_longest_match`'s dynamic program: position
`(i, j)` can carry a positive run when `i` is a row at or after `alo`
(`j2len` starts empty at row `alo`), `j` is a position of `b2j[a[i]]` at or
after `blo` (so a valid index of `b` holding the same character as
`a[i]`). -/
def okCell (a b : List Char) (alo blo : ℕ) (i j : ℕ) : Bool :=
  alo ≤ i && blo ≤ j && decide (i < a.length) && decide (j < b.length) &&
    (a.getD i 'a' == b.getD j 'a')

/-- The value `j2len[j]` in row `i` of `find_longest_match`'s loop: the
length of the common suffix of `a[alo:i+1]` and `b[blo:j+1]`, i.e.
`newj2len[j] = j2len.get(j - 1, 0) + 1` on admissible cells and `0`
elsewhere (the dictionary default). -/
def runLen (a b : List Char) (alo blo : ℕ) : ℕ → ℕ → ℕ
  | 0, j => if okCell a b alo blo 0 j then 1 else 0
  | i + 1, 0 => if okCell a b alo blo (i + 1) 0 then 1 else 0
  | i + 1, j + 1 =>
    if okCell a b alo blo (i + 1) (j + 1) then runLen a b alo blo i j + 1 else 0

/-- Largest run length in row `i` of `find_longest_match`'s scan, over the
columns `[blo, bhi)` (difflib only visits the `j` with `b[j] == a[i]`; all
other cells have run length `0` and never pass the strict `k > bestsize`
test). -/
def rowMax (a b : List Char) (alo blo bhi : ℕ) (i : ℕ) : ℕ :=
  (List.range' blo (bhi - blo)).foldl (fun m j => max m (runLen a b alo blo i j)) 0

/-- The nested loops of `find_longest_match` update
`besti, bestj, bestsize = i-k+1, j-k+1, k` whenever `k > bestsize`, with
cells visited in ascending `(i, j)` order; the final best is therefore the
first visited cell whose run length attains the maximum over all cells
(and the initial `(alo, blo, 0)` when every cell has run length `0`):
first row whose maximum attains it, first column in that row. -/
def flmScan (a b : List Char) (alo ahi blo bhi : ℕ) : ℕ × ℕ × ℕ :=
  let kmax := (List.range' alo (ahi - alo)).foldl
    (fun m i => max m (rowMax a b alo blo bhi i)) 0
  if kmax = 0 then (alo, blo, 0)
  else
    match (List.range' alo (ahi - alo)).find? (fun i => rowMax a b alo blo bhi i == kmax) with
    | some i =>
      match (List.range' blo (bhi - blo)).find? (fun j => runLen a b alo blo i j == kmax) with
      | some j => (i + 1 - kmax, j + 1 - kmax, kmax)
      | none => (alo, blo, 0)
    | none => (alo, blo, 0)

/-- First extension loop of `find_longest_match`: with `isjunk = None` and
no autojunk, `isbjunk` is always false, so the loop extends the best block
to the left while the adjacent characters match (a no-op in fact, since
the main loop already found a maximal run, but kept for faithfulness).
The in-bounds guards replace Python's implicit index validity. -/
def extLeft (a b : List Char) (alo blo : ℕ) : ℕ → ℕ × ℕ × ℕ → ℕ × ℕ × ℕ
  | 0, best => best
  | fuel + 1, (bi, bj, bs) =>
    if alo < bi ∧ blo < bj ∧ bi - 1 < a.length ∧ bj - 1 < b.length ∧
        a.getD (bi - 1) 'a' = b.getD (bj - 1) 'a' then
      extLeft a b alo blo fuel (bi - 1, bj - 1, bs + 1)
    else (bi, bj, bs)

/-- Second extension loop of `find_longest_match`: extend to the right
while the characters following the block match (again junk-free). -/
def extRight (a b : List Char) (ahi bhi : ℕ) : ℕ → ℕ × ℕ × ℕ → ℕ × ℕ × ℕ
  | 0, best => best
  | fuel + 1, (bi, bj, bs) =>
    if bi + bs < ahi ∧ bj + bs < bhi ∧ bi + bs < a.length ∧ bj + bs < b.length ∧
        a.getD (bi + bs) 'a' = b.getD (bj + bs) 'a' then
      extRight a b ahi bhi fuel (bi, bj, bs + 1)
    else (bi, bj, bs)

/-- Embedding of `SequenceMatcher(None, a, b).find_longest_match(alo, ahi,
blo, bhi)`: the longest block `a[i:i+k] == b[j:j+k]` with `alo <= i`,
`i+k <= ahi`, `blo <= j`, `j+k <= bhi`, earliest in `a` then in `b` among
maximal ones.  The two junk extension loops of difflib are dead code here
(`isbjunk` is constantly false) and are omitted. -/
def find_longest_match (a b : List Char) (alo ahi blo bhi : ℕ) : ℕ × ℕ × ℕ :=
  let best := flmScan a b alo ahi blo bhi
  extRight a b ahi bhi ahi (extLeft a b alo blo best.1 best)

/-- Total number of matched elements of `get_matching_blocks`: recursively
take the longest match and recurse on both sides (the queue in difflib).
`fuel` bounds the recursion depth; `a.length + 1` always suffices because
each recursive range is strictly shorter. -/
def msFuel (a b : List Char) : ℕ → ℕ → ℕ → ℕ → ℕ → ℕ
  | 0, _, _, _, _ => 0
  | fuel + 1, alo, ahi, blo, bhi =>
    let t := find_longest_match a b alo ahi blo bhi
    if t.2.2 = 0 then 0
    else msFuel a b fuel alo t.1 blo t.2.1 + t.2.2 +
      msFuel a b fuel (t.1 + t.2.2) ahi (t.2.1 + t.2.2) bhi

/-- Sum of the sizes of the matching blocks of `SequenceMatcher(None, a, b)`
(the `matches` of `ratio()`). -/
def matchedSize (a b : List Char) : ℕ :=
  msFuel a b (a.length + 1) 0 a.length 0 b.length

/-- The matches counted by `quick_ratio()`: for each character, the number
of times it appears in both sequences, `sum_c min(count_a c, count_b c)`. -/
def quickMatches (x w : List Char) : ℕ :=
  ∑ c in (x ++ w).toFinset, min (x.count c) (w.count c)

/-- The `ratio()` of `SequenceMatcher(None, x, w)`: `_calculate_ratio`
returns `2 * M / T`, and `1.0` when `T = 0` (two empty sequences), as an
exact rational; with sequences of the lengths this program compares the
float value difflib computes orders and compares identically. -/
def ratioSM (x w : List Char) : ℚ :=
  if x.length + w.length = 0 then 1
  else 2 * (matchedSize x w : ℚ) / ((x.length + w.length : ℕ) : ℚ)

/-- Soundness property of a block `(i, j, k)` produced for the ranges
`[alo, ahi) × [blo, bhi)`: unless empty, it designates equal, in-bounds
stretches `a[i:i+k]` and `b[j:j+k]` inside the ranges. -/
def SoundBlock (a b : List Char) (alo ahi blo bhi : ℕ) (t : ℕ × ℕ × ℕ) : Prop :=
  t.2.2 ≠ 0 →
    alo ≤ t.1 ∧ t.1 + t.2.2 ≤ ahi ∧ blo ≤ t.2.1 ∧ t.2.1 + t.2.2 ≤ bhi ∧
    ∀ s < t.2.2, t.1 + s < a.length ∧ t.2.1 + s < b.length ∧
      a.getD (t.1 + s) 'a' = b.getD (t.2.1 + s) 'a' 

/-- The three-cutoff test of `get_close_matches` for `cutoff = 0.6`:
`real_quick_ratio() >= cutoff and quick_ratio() >= cutoff and
ratio() >= cutoff`.  Each `2 * m / T >= 3/5` is written cross-multiplied
as `3 * T <= 10 * m`, which is exact (and `T > 0` whenever the tested word
is non-empty, as it always is here). -/
def ratioGate (x w : List Char) : Bool :=
  let t := x.length + w.length
  (3 * t ≤ 10 * min x.length w.length) &&
  (3 * t ≤ 10 * quickMatches x w) &&
  (3 * t ≤ 10 * matchedSize x w)

/-- Python string `<` (lexicographic by code point). -/
def pyStrLt : List Char → List Char → Bool
  | [], [] => false
  | [], _ :: _ => true
  | _ :: _, [] => false
  | a :: as, b :: bs =>
    if a.toNat < b.toNat then true
    else if b.toNat < a.toNat then false
    else pyStrLt as bs

/-- Comparison used by `heapq.nlargest(1, result)` on the `(ratio, x)`
pairs: `cand` beats `cur` when its ratio is strictly larger, or the ratios
are equal and `cand` is the lexicographically larger string.  Ratios
`2*m/T` are compared by cross-multiplication (the factors 2 cancel). -/
def better (w cur cand : List Char) : Bool :=
  let mc := matchedSize cur w
  let tc := cur.length + w.length
  let md := matchedSize cand w
  let td := cand.length + w.length
  (mc * td < md * tc) || (mc * td == md * tc && pyStrLt cur cand)

/-- Embedding of `difflib.get_close_matches(word, possibilities, n=1,
cutoff=0.6)` as called on line 155 of `src/main.py`: keep the
possibilities passing the three cutoff tests, in order, and return the
maximum under the `(ratio, string)` order, or nothing. -/
def get_close_matches1 (word : List Char) (possibilities : List (List Char)) :
    Option (List Char) :=
  (possibilities.filter (fun x => ratioGate x word)).foldl
    (fun acc x =>
      match acc with
      | none => some x
      | some cur => if better word cur x then some x else some cur)
    none

/-- Splitter of `re.split(r',| e ', pedido_normalizado)` (line 136 of
`src/main.py`): scan left to right, cutting at each `,` (tried first) or
at each literal `" e "`. -/
def reSplit (acc : List Char) : List Char → List (List Char)
  | [] => [acc.reverse]
  | ',' :: rest => acc.reverse :: reSplit [] rest
  | ' ' :: 'e' :: ' ' :: rest => acc.reverse :: reSplit [] rest
  | c :: rest => reSplit (c :: acc) rest

/-- The fragments the loop of lines 144-152 iterates over: split the
normalized order text, strip each fragment, drop the empty ones
(`[p.strip() for p in palavras if p.strip()]`). -/
def palavrasOf (pedido : List Char) : List (List Char) :=
  ((reSplit [] (normalizar pedido)).map pyStrip).filter (fun p => !p.isEmpty)

/-- Greedy-with-backtracking choice of the `\s+` extent in
`re.match(r'(\d+)\s+(.+)', palavra)`: take the largest `k ≥ 1` within the
maximal whitespace run such that at least one `.`-matchable (non-newline)
character follows. -/
def btQty (r : List Char) : ℕ → Option ℕ
  | 0 => none
  | k + 1 =>
    match (r.drop (k + 1)).head? with
    | some c => if c ≠ '\n' then some (k + 1) else btQty r k
    | none => btQty r k

/-- Embedding of `re.match(r'(\d+)\s+(.+)', palavra)` (line 145 of
`src/main.py`): a leading maximal run of digits (backtracking it cannot
help since `\s` matches no digit), at least one whitespace character, and
a non-empty greedy `.+` for the rest (stopping at a newline, which `.`
does not match).  Returns `int(group(1))` and `group(2)`. -/
def matchQty (w : List Char) : Option (ℕ × List Char) :=
  let ds := w.takeWhile pyIsDigit
  if ds.isEmpty then none
  else
    let r := w.drop ds.length
    match btQty r (r.takeWhile pyIsSpace).length with
    | some k => some (digitsToNat ds, (r.drop k).takeWhile (fun c => c ≠ '\n'))
    | none => none

/-- Quantity and description of one fragment (lines 144-152): on a match,
`qtd = int(group(1))` and `prod_nome_raw = group(2).strip()`; otherwise
`qtd = 1` and the whole fragment is the description. -/
def parsePhrase (palavra : List Char) : ℕ × List Char :=
  match matchQty palavra with
  | some qd => (qd.1, pyStrip qd.2)
  | none => (1, palavra)

/-- A line item of the order: quantity, display name of the matched
product, and subtotal in centavos.  The source stores the formatted string
`f"{qtd} {nome_original} — R${subtotal:.2f}"`; the embedding keeps the
three fields the string displays. -/
structure ItemPedido where
  qtd : ℕ
  nome : List Char
  subtotal : ℕ
  deriving DecidableEq

/-- The dictionary `mapa_produtos` of line 131 (normalized name to entry,
later entries overwriting earlier ones) applied to a key: the last entry
whose normalized name is the key. -/
def mapaLookup (produtos : List Produto) (key : List Char) : Option Produto :=
  produtos.reverse.find? (fun p => normalizar p.1 == key)

/-- Body of the `for palavra in palavras` loop of lines 144-167, as a step
of a fold over `(total, itens_pedidos, avisos)`: on a fuzzy match, add
`preco * qtd` to the running total (in centavos) and append the line item;
otherwise append the description to the printed warnings. -/
def processPalavra (nomes : List (List Char)) (produtos : List Produto)
    (acc : ℕ × List ItemPedido × List (List Char)) (palavra : List Char) :
    ℕ × List ItemPedido × List (List Char) :=
  let qd := parsePhrase palavra
  match get_close_matches1 qd.2 nomes with
  | some nome_norm =>
    match mapaLookup produtos nome_norm with
    | some p => (acc.1 + p.2 * qd.1, acc.2.1 ++ [⟨qd.1, p.1, p.2 * qd.1⟩], acc.2.2)
    | none => acc
  | none => (acc.1, acc.2.1, acc.2.2 ++ [qd.2])

/-- The loop of `calcular_pedido_completo` over all fragments, carrying the
total in centavos; `nomes_prod_norm` is the list of line 128. -/
def calcularCent (pedido : List Char) (produtos : List Produto) :
    ℕ × List ItemPedido × List (List Char) :=
  (palavrasOf pedido).foldl
    (processPalavra (produtos.map (fun p => normalizar p.1)) produtos) (0, [], [])

/-- Round-half-to-even to an integer, the rounding mode of Python's
`round`. -/
def roundHalfEven (q : ℚ) : ℤ :=
  let f := ⌊q⌋
  let r := q - f
  if r < 1 / 2 then f
  else if 1 / 2 < r then f + 1
  else if f % 2 = 0 then f else f + 1

/-- Python `round(q, 2)` on the exact value. -/
def round2 (q : ℚ) : ℚ := (roundHalfEven (q * 100) : ℚ) / 100

/-- Embedding of `calcular_pedido_completo` (lines 122-170 of
`src/main.py`): it returns `round(total, 2)` and the line items; the
embedding additionally returns the warned unmatched descriptions of line
167, which the source prints instead of returning. -/
def calcular_pedido_completo (pedido : List Char) (produtos : List Produto) :
    ℚ × List ItemPedido × List (List Char) :=
  let r := calcularCent pedido produtos
  (round2 (precoQ r.1), r.2.1, r.2.2)

/-- The line item a single fragment contributes, if any (used to state the
fold of `calcularCent` in closed form). -/
def itemOf (nomes : List (List Char)) (produtos : List Produto)
    (palavra : List Char) : Option ItemPedido :=
  match get_close_matches1 (parsePhrase palavra).2 nomes with
  | some nm =>
    (mapaLookup produtos nm).map
      (fun p => ⟨(parsePhrase palavra).1, p.1, p.2 * (parsePhrase palavra).1⟩)
  | none => none

/-- The unmatched-description warning a single fragment contributes, if
any. -/
def avisoOf (nomes : List (List Char)) (palavra : List Char) :
    Option (List Char) :=
  match get_close_matches1 (parsePhrase palavra).2 nomes with
  | some _ => none
  | none => some (parsePhrase palavra).2

/-- The two-entry catalog of the spec's end-to-end scenarios. -/
def catalogoExemplo : List Produto :=
  [("Pão Francês".toList, 80), ("Bolo Inteiro Chocolate".toList, 3800)]

/-- A character is inert for normalization when it is neither case-folded
nor decomposable. -/
def fixedChar (c : Char) : Bool :=
  (alook lowerTable c).isNone && (alook nfdTable c).isNone

lemma alook_mem {α : Type} : ∀ (l : List (Char × α)) {c : Char} {v : α},
    alook l c = some v → (c, v) ∈ l := by
  intro l
  induction l with
  | nil => intro c v h; simp [alook] at h
  | cons p rest ih =>
    intro c v h
    obtain ⟨k, w⟩ := p
    by_cases hc : c = k
    · subst hc
      simp [alook] at h
      simp [h]
    · simp [alook, hc] at h
      exact List.mem_cons_of_mem _ (ih h)

lemma pyLower_eq_of_none {c : Char} (h : alook lowerTable c = none) :
    pyLower c = c := by simp [pyLower, h]

lemma nfdChar_eq_of_none {c : Char} (h : alook nfdTable c = none) :
    nfdChar c = [c] := by simp [nfdChar, h]

lemma nfdTable_good :
    nfdTable.all (fun p => p.2.all (fun d => isMn d || fixedChar d)) = true := by
  decide

lemma lowerTable_good :
    lowerTable.all (fun p => (alook lowerTable p.2).isNone) = true := by decide

/-- Every non-mark character produced by `nfdChar (pyLower c)` is inert:
lower-casing and decomposing it again changes nothing. -/
lemma norm_output_fixed (c d : Char) (hd : d ∈ nfdChar (pyLower c))
    (hmn : isMn d = false) : fixedChar d = true := by
  have hval : ∀ v l, alook nfdTable v = some l → d ∈ l → fixedChar d = true := by
    intro v l hv hdl
    have hmem := alook_mem nfdTable hv
    have h1 := List.all_eq_true.mp nfdTable_good _ hmem
    have h2 := List.all_eq_true.mp h1 _ hdl
    rcases Bool.or_eq_true_iff.mp h2 with h | h
    · rw [hmn] at h; cases h
    · exact h
  cases h1 : alook lowerTable c with
  | some v =>
    have hpv : pyLower c = v := by simp [pyLower, h1]
    rw [hpv] at hd
    cases h2 : alook nfdTable v with
    | some l => exact hval v l h2 (by rwa [nfdChar, h2] at hd)
    | none =>
      rw [nfdChar_eq_of_none h2] at hd
      have hdv : d = v := by simpa using hd
      subst hdv
      have h3 := List.all_eq_true.mp lowerTable_good _ (alook_mem lowerTable h1)
      simp only [fixedChar, Bool.and_eq_true]
      exact ⟨h3, by simp [h2]⟩
  | none =>
    have hpc : pyLower c = c := pyLower_eq_of_none h1
    rw [hpc] at hd
    cases h2 : alook nfdTable c with
    | some l => exact hval c l h2 (by rwa [nfdChar, h2] at hd)
    | none =>
      rw [nfdChar_eq_of_none h2] at hd
      have hdc : d = c := by simpa using hd
      subst hdc
      simp [fixedChar, h1, h2]

lemma mem_normalizar_fixed (s : List Char) (d : Char) (hd : d ∈ normalizar s) :
    fixedChar d = true ∧ isMn d = false := by
  unfold normalizar remover_acentos at hd
  rw [List.mem_filter] at hd
  obtain ⟨hd1, hd2⟩ := hd
  have hmn : isMn d = false := by simpa using hd2
  rw [List.mem_flatMap] at hd1
  obtain ⟨x, hx, hdx⟩ := hd1
  rw [List.mem_map] at hx
  obtain ⟨c, _, rfl⟩ := hx
  exact ⟨norm_output_fixed c d hdx hmn, hmn⟩

lemma normalizar_of_fixed : ∀ l : List Char,
    (∀ d ∈ l, fixedChar d = true ∧ isMn d = false) → normalizar l = l := by
  intro l
  induction l with
  | nil => intro _; rfl
  | cons d rest ih =>
    intro h
    obtain ⟨hfix, hmn⟩ := h d (List.mem_cons_self d rest)
    have hfix' : alook lowerTable d = none ∧ alook nfdTable d = none := by
      simpa [fixedChar, Option.isNone_iff_eq_none] using hfix
    obtain ⟨h1, h2⟩ := hfix'
    have hrest := ih (fun x hx => h x (List.mem_cons_of_mem d hx))
    unfold normalizar remover_acentos at hrest ⊢
    simp only [List.map_cons, List.flatMap_cons, List.filter_append]
    rw [pyLower_eq_of_none h1, nfdChar_eq_of_none h2]
    simp [hmn, hrest]

/-- Claim C8: text normalization (lower-casing, then decomposing to base
letter plus combining marks and dropping the marks) is idempotent for
every string, case- and diacritic-insensitive
(`normalize("PÃO") == normalize("pao")`), and total, with non-decomposable
characters passed through unchanged. -/
theorem claim_C8 :
    (∀ s : List Char, normalizar (normalizar s) = normalizar s) ∧
    normalizar "PÃO".toList = normalizar "pao".toList ∧
    (∀ c : Char, nfdChar c = [c] → isMn c = false → remover_acentos [c] = [c]) := by
  refine ⟨?_, by decide, ?_⟩
  · intro s
    exact normalizar_of_fixed (normalizar s) (mem_normalizar_fixed s)
  · intro c hdec hmn
    unfold remover_acentos
    simp [hdec, hmn]

/-- Witness for claim C8: the letter `x` is non-decomposable and not a
combining mark, and passes through `remover_acentos` unchanged. -/
theorem claim_C8_witness : remover_acentos ['x'] = ['x'] :=
  claim_C8.2.2 'x' (by decide) (by decide)

lemma inner_foldl_eq :
    ∀ (parts : List (List Char)) (acc : List Produto),
      parts.foldl
        (fun produtos part =>
          match reSearchProduto (pyStrip part) with
          | some e => produtos ++ [e]
          | none => produtos) acc
      = acc ++ parts.filterMap (fun part => reSearchProduto (pyStrip part)) := by
  intro parts
  induction parts with
  | nil => intro acc; simp
  | cons p rest ih =>
    intro acc
    simp only [List.foldl_cons, List.filterMap_cons]
    cases h : reSearchProduto (pyStrip p) with
    | some e => simp [ih]
    | none => simp [ih]

lemma extract_products_eq_spec (t : List Char) :
    extract_products t = extractCatalogSpec t := by
  unfold extract_products extractCatalogSpec
  generalize splitLines t = lines
  suffices h : ∀ (acc : List Produto),
      lines.foldl
        (fun produtos line =>
          (splitBar line).foldl
            (fun produtos part =>
              match reSearchProduto (pyStrip part) with
              | some e => produtos ++ [e]
              | none => produtos) produtos) acc
      = acc ++ lines.flatMap
          (fun line =>
            (splitBar line).filterMap (fun part => reSearchProduto (pyStrip part))) by
    simpa using h []
  induction lines with
  | nil => intro acc; simp
  | cons line rest ih =>
    intro acc
    simp only [List.foldl_cons, List.flatMap_cons]
    rw [inner_foldl_eq (splitBar line) acc, ih]
    simp

lemma splitBarGo_chars :
    ∀ (acc l : List Char) (part : List Char), part ∈ splitBarGo acc l →
      ∀ c ∈ part, c ∈ acc ∨ c ∈ l := by
  intro acc l
  induction acc, l using splitBarGo.induct with
  | case1 acc =>
    intro part hp c hc
    simp [splitBarGo] at hp
    subst hp
    simp at hc
    tauto
  | case2 acc rest ih =>
    intro part hp c hc
    simp only [splitBarGo, List.mem_cons] at hp
    rcases hp with hp | hp
    · subst hp
      simp at hc
      tauto
    · rcases ih part hp c hc with h | h
      · simp at h
      · exact Or.inr (List.mem_cons_of_mem _ h)
  | case3 acc c' rest hne ih =>
    intro part hp c hc
    rw [splitBarGo] at hp
    · rcases ih part hp c hc with h | h
      · rcases List.mem_cons.mp h with h | h
        · exact Or.inr (h ▸ List.mem_cons_self _ _)
        · exact Or.inl h
      · exact Or.inr (List.mem_cons_of_mem _ h)
    · exact hne

lemma splitLinesGo_chars :
    ∀ (acc l : List Char) (line : List Char), line ∈ splitLinesGo acc l →
      ∀ c ∈ line, c ∈ acc ∨ c ∈ l := by
  intro acc l
  induction acc, l using splitLinesGo.induct with
  | case1 acc hemp =>
    intro line hl c hc
    simp [splitLinesGo, hemp] at hl
  | case2 acc hemp =>
    intro line hl c hc
    simp [splitLinesGo, hemp] at hl
    subst hl
    simp at hc
    tauto
  | case3 acc rest ih =>
    intro line hl c hc
    rw [splitLinesGo] at hl
    rcases List.mem_cons.mp hl with hl' | hl'
    · subst hl'
      simp at hc
      tauto
    · rcases ih line hl' c hc with h | h
      · simp at h
      · exact Or.inr (List.mem_cons_of_mem _ (List.mem_cons_of_mem _ h))
  | case4 acc rest hne ih =>
    intro line hl c hc
    rw [splitLinesGo] at hl
    · rcases List.mem_cons.mp hl with hl' | hl'
      · subst hl'
        simp at hc
        tauto
      · rcases ih line hl' c hc with h | h
        · simp at h
        · exact Or.inr (List.mem_cons_of_mem _ h)
    · exact hne
  | case5 acc rest ih =>
    intro line hl c hc
    rw [splitLinesGo] at hl
    rcases List.mem_cons.mp hl with hl' | hl'
    · subst hl'
      simp at hc
      tauto
    · rcases ih line hl' c hc with h | h
      · simp at h
      · exact Or.inr (List.mem_cons_of_mem _ h)
  | case6 acc c' rest h1 h2 h3 ih =>
    intro line hl c hc
    rw [splitLinesGo] at hl
    · rcases ih line hl c hc with h | h
      · rcases List.mem_cons.mp h with h | h
        · exact Or.inr (h ▸ List.mem_cons_self _ _)
        · exact Or.inl h
      · exact Or.inr (List.mem_cons_of_mem _ h)
    · exact h1
    · exact h2
    · exact h3

lemma pyStrip_subset {l : List Char} {c : Char} (hc : c ∈ pyStrip l) : c ∈ l := by
  unfold pyStrip at hc
  rw [List.mem_reverse] at hc
  have h1 := (List.dropWhile_sublist (l := (l.dropWhile pyIsSpace).reverse)
    (p := pyIsSpace)).subset hc
  rw [List.mem_reverse] at h1
  exact (List.dropWhile_sublist (l := l) (p := pyIsSpace)).subset h1

lemma tailMatch_dash {u : List Char} {x : ℕ} (h : tailMatch u = some x) :
    '—' ∈ u := by
  unfold tailMatch at h
  split at h
  · next heq =>
    have hm : '—' ∈ u.dropWhile pyIsSpace := by
      rw [heq]
      exact List.mem_cons_self _ _
    exact (List.dropWhile_sublist (l := u) (p := pyIsSpace)).subset hm
  · exact absurd h (by simp)

lemma findMatchFrom_dash {s : List Char} :
    ∀ {fuel j : ℕ} {e : List Char × ℕ}, findMatchFrom s j fuel = some e →
      '—' ∈ s := by
  intro fuel
  induction fuel with
  | zero => intro j e h; exact absurd h (by simp [findMatchFrom])
  | succ n ih =>
    intro j e h
    rw [findMatchFrom] at h
    split at h
    · split at h
      · next heq =>
        split at heq
        · exact List.drop_subset _ _ (tailMatch_dash heq)
        · exact absurd heq (by simp)
      · exact ih h
    · exact absurd h (by simp)

lemma extract_products_eq_nil_of_no_dash {t : List Char} (h : '—' ∉ t) :
    extract_products t = [] := by
  rw [extract_products_eq_spec]
  unfold extractCatalogSpec
  rw [List.flatMap_eq_nil_iff]
  intro line hline
  rw [List.filterMap_eq_nil_iff]
  intro part hpart
  cases hr : reSearchProduto (pyStrip part) with
  | none => rfl
  | some e =>
    exfalso
    have hdash : '—' ∈ pyStrip part := findMatchFrom_dash hr
    have h1 : '—' ∈ part := pyStrip_subset hdash
    have h2 : '—' ∈ line := by
      rcases splitBarGo_chars [] line part hpart '—' h1 with h' | h'
      · simp at h'
      · exact h'
    have h3 : '—' ∈ t := by
      rcases splitLinesGo_chars [] t line hline '—' h2 with h' | h'
      · simp at h'
      · exact h'
    exact h h3

/-- Claim C2: the catalog extractor works line by line, splits each line on
the vertical bar first, then matches each segment against the
name/em-dash/currency/amount pattern, output in document order with
bar-separated segments left to right (the closed form
`extractCatalogSpec`); the example document yields exactly the two entries
at `0.80` and `38.00` reais, and the bar-separated single line yields two
distinct entries. -/
theorem claim_C2 :
    (∀ t : List Char, extract_products t = extractCatalogSpec t) ∧
    (extract_products "Pão Francês — R$0,80\nBolo Inteiro Chocolate — R$38,00".toList).map
        (fun p => (p.1, precoQ p.2))
      = [("Pão Francês".toList, 4 / 5), ("Bolo Inteiro Chocolate".toList, 38)] ∧
    (extract_products "A — R$1,00 | B — R$2,00".toList).map (fun p => (p.1, precoQ p.2))
      = [("A".toList, 1), ("B".toList, 2)] := by
  refine ⟨extract_products_eq_spec, ?_, ?_⟩
  · have h : extract_products
        "Pão Francês — R$0,80\nBolo Inteiro Chocolate — R$38,00".toList
        = [("Pão Francês".toList, 80), ("Bolo Inteiro Chocolate".toList, 3800)] := by
      decide
    rw [h]
    norm_num [precoQ]
  · have h : extract_products "A — R$1,00 | B — R$2,00".toList
        = [("A".toList, 100), ("B".toList, 200)] := by decide
    rw [h]
    norm_num [precoQ]

/-- Counterexample to claim C3: the pattern has no trailing anchor, so on
the three-fractional-digit segment `"Nome — R$12,500"` `re.search` matches
`"Nome — R$12,50"` and the segment is partially parsed into an entry of
1250 centavos (`12.50`), not skipped. -/
theorem counterexample_C3 :
    extract_products "Nome — R$12,500".toList ≠ [] ∧
    extract_products "Nome — R$12,500".toList = [("Nome".toList, 1250)] := by
  constructor
  · decide
  · decide

/-- Claim C3 as amended: a segment whose amount has three fractional
digits is not skipped: the pattern matches the first two fractional digits
and the segment contributes a partially parsed entry; a segment with no
em-dash separator still contributes nothing (here for a whole document
without the separator). -/
theorem claim_C3 :
    extract_products "Nome — R$12,500".toList = [("Nome".toList, 1250)] ∧
    (∀ t : List Char, '—' ∉ t → extract_products t = []) := by
  exact ⟨by decide, fun t h => extract_products_eq_nil_of_no_dash h⟩

/-- Witness for claim C3: a separator-free line extracts no entry. -/
theorem claim_C3_witness : extract_products "linha sem separador".toList = [] :=
  claim_C3.2 _ (by decide)

/-- Counterexample to claim C10: the amount `R$0,00` parses to a zero
price, so the extracted entry violates `unitPrice > 0`. -/
theorem counterexample_C10 :
    ¬ ∀ p ∈ extract_products "X — R$0,00".toList, 0 < precoQ p.2 := by
  intro h
  have hm : (("X".toList, 0) : Produto) ∈ extract_products "X — R$0,00".toList := by
    decide
  have h0 := h _ hm
  simp [precoQ] at h0

/-- Claim C10 as amended: every extracted catalog entry has a nonnegative
unit price (zero is possible, for an amount written `0,00`). -/
theorem claim_C10 :
    ∀ (t : List Char), ∀ p ∈ extract_products t, 0 ≤ precoQ p.2 := by
  intro t p _
  unfold precoQ
  positivity

/-- Witness for claim C10: the entry extracted from the example line has a
nonnegative price. -/
theorem claim_C10_witness : 0 ≤ precoQ (80 : ℕ) :=
  claim_C10 "Pão Francês — R$0,80".toList ("Pão Francês".toList, 80) (by decide)

lemma foldl_process_eq (nomes : List (List Char)) (produtos : List Produto) :
    ∀ (ws : List (List Char)) (acc : ℕ × List ItemPedido × List (List Char)),
      ws.foldl (processPalavra nomes produtos) acc
      = (acc.1 + ((ws.filterMap (itemOf nomes produtos)).map ItemPedido.subtotal).sum,
         acc.2.1 ++ ws.filterMap (itemOf nomes produtos),
         acc.2.2 ++ ws.filterMap (avisoOf nomes)) := by
  intro ws
  induction ws with
  | nil => intro acc; simp
  | cons w rest ih =>
    intro acc
    simp only [List.foldl_cons, List.filterMap_cons]
    cases hgcm : get_close_matches1 (parsePhrase w).2 nomes with
    | some nm =>
      cases hlk : mapaLookup produtos nm with
      | some p =>
        rw [ih]
        simp only [processPalavra, itemOf, avisoOf, hgcm, hlk, Option.map_some]
        simp [List.append_assoc, Nat.add_assoc]
      | none =>
        rw [ih]
        simp only [processPalavra, itemOf, avisoOf, hgcm, hlk]
        simp
    | none =>
      rw [ih]
      simp only [processPalavra, itemOf, avisoOf, hgcm]
      simp [List.append_assoc]

lemma calcularCent_eq (pedido : List Char) (produtos : List Produto) :
    calcularCent pedido produtos
    = ((((palavrasOf pedido).filterMap
          (itemOf (produtos.map fun p => normalizar p.1) produtos)).map
            ItemPedido.subtotal).sum,
       (palavrasOf pedido).filterMap
         (itemOf (produtos.map fun p => normalizar p.1) produtos),
       (palavrasOf pedido).filterMap (avisoOf (produtos.map fun p => normalizar p.1))) := by
  unfold calcularCent
  rw [foldl_process_eq]
  simp

lemma roundHalfEven_intCast (m : ℤ) : roundHalfEven (m : ℚ) = m := by
  unfold roundHalfEven
  rw [Int.floor_intCast]
  norm_num

lemma round2_precoQ (n : ℕ) : round2 (precoQ n) = precoQ n := by
  unfold round2 precoQ
  have h : (n : ℚ) / 100 * 100 = ((n : ℤ) : ℚ) := by
    push_cast
    field_simp
  rw [h, roundHalfEven_intCast]
  push_cast
  rfl

set_option maxRecDepth 400000 in
/-- Claim C1: end-to-end, the example document yields the two-entry
catalog, and the order `"2 paes franceses e 1 bolo inteiro chocolate"`
against it totals `198/5 = 39.60` reais with exactly the two line items
(2 × Pão Francês at `160` centavos `= 8/5` reais `= 1.60`, and 1 × Bolo
Inteiro Chocolate at `3800` centavos `= 38.00`) and no unmatched
phrase. -/
theorem claim_C1 :
    extract_products "Pão Francês — R$0,80\nBolo Inteiro Chocolate — R$38,00".toList
      = catalogoExemplo ∧
    calcular_pedido_completo "2 paes franceses e 1 bolo inteiro chocolate".toList
        catalogoExemplo
      = (198 / 5,
         [⟨2, "Pão Francês".toList, 160⟩, ⟨1, "Bolo Inteiro Chocolate".toList, 3800⟩],
         []) ∧
    precoQ 160 = 8 / 5 ∧ precoQ 3800 = 38 := by
  have hext : extract_products
      "Pão Francês — R$0,80\nBolo Inteiro Chocolate — R$38,00".toList
      = catalogoExemplo := by decide
  have hnomes : catalogoExemplo.map (fun p => normalizar p.1)
      = ["pao frances".toList, "bolo inteiro chocolate".toList] := by decide
  have hpal : palavrasOf "2 paes franceses e 1 bolo inteiro chocolate".toList
      = ["2 paes franceses".toList, "1 bolo inteiro chocolate".toList] := by decide
  have h1 : processPalavra ["pao frances".toList, "bolo inteiro chocolate".toList]
      catalogoExemplo (0, [], []) "2 paes franceses".toList
      = (160, [⟨2, "Pão Francês".toList, 160⟩], []) := by decide
  have h2 : processPalavra ["pao frances".toList, "bolo inteiro chocolate".toList]
      catalogoExemplo (160, [⟨2, "Pão Francês".toList, 160⟩], [])
      "1 bolo inteiro chocolate".toList
      = (3960,
         [⟨2, "Pão Francês".toList, 160⟩, ⟨1, "Bolo Inteiro Chocolate".toList, 3800⟩],
         []) := by decide
  have hc : calcularCent "2 paes franceses e 1 bolo inteiro chocolate".toList
      catalogoExemplo
      = (3960,
         [⟨2, "Pão Francês".toList, 160⟩, ⟨1, "Bolo Inteiro Chocolate".toList, 3800⟩],
         []) := by
    unfold calcularCent
    rw [hpal, hnomes]
    simp only [List.foldl_cons, List.foldl_nil]
    rw [h1, h2]
  refine ⟨hext, ?_, by norm_num [precoQ], by norm_num [precoQ]⟩
  unfold calcular_pedido_completo
  rw [hc]
  have ht : round2 (precoQ 3960) = 198 / 5 := by
    rw [round2_precoQ]
    norm_num [precoQ]
  simp only [ht]

/-- Claim C6: a phrase whose description has no fuzzy match never silently
vanishes: it is recorded in the warned (unmatched) output, and processing
continues (the remaining phrases are still processed — the aggregation is
total); concretely, `"3 xyz inexistente"` against the example catalog
yields total `0.00`, zero line items and the single unmatched description
`"xyz inexistente"`. -/
theorem claim_C6 :
    (∀ (pedido : List Char) (produtos : List Produto) (w : List Char),
        w ∈ palavrasOf pedido →
        get_close_matches1 (parsePhrase w).2 (produtos.map fun p => normalizar p.1)
          = none →
        (parsePhrase w).2 ∈ (calcular_pedido_completo pedido produtos).2.2) ∧
    calcular_pedido_completo "3 xyz inexistente".toList catalogoExemplo
      = (0, [], ["xyz inexistente".toList]) := by
  constructor
  · intro pedido produtos w hw hnone
    simp only [calcular_pedido_completo, calcularCent_eq]
    exact List.mem_filterMap.mpr ⟨w, hw, by simp [avisoOf, hnone]⟩
  · have hc : calcularCent "3 xyz inexistente".toList catalogoExemplo
        = (0, [], ["xyz inexistente".toList]) := by decide
    unfold calcular_pedido_completo
    rw [hc]
    have hz : round2 (precoQ 0) = 0 := by
      rw [round2_precoQ]
      simp [precoQ]
    simp [hz]

/-- Witness for claim C6: the unmatched description of scenario 3 indeed
appears in the warned output. -/
theorem claim_C6_witness :
    (parsePhrase "3 xyz inexistente".toList).2
      ∈ (calcular_pedido_completo "3 xyz inexistente".toList catalogoExemplo).2.2 :=
  claim_C6.1 "3 xyz inexistente".toList catalogoExemplo "3 xyz inexistente".toList
    (by decide) (by decide)

/-- Counterexample to claim C9: the order text `"0 paes"` tokenizes to a
phrase with quantity `0`, violating `quantity ≥ 1`. -/
theorem counterexample_C9 :
    ¬ ∀ ph ∈ (palavrasOf "0 paes".toList).map parsePhrase, 1 ≤ ph.1 := by decide

/-- Claim C9 as amended: every phrase produced by tokenization has as
quantity the parsed leading integer when one is present — which may be
`0`, as in `"0 paes"` — and the default `1` otherwise; the quantity is a
nonnegative integer, and is at least `1` except when an explicit leading
zero integer was written. -/
theorem claim_C9 :
    ∀ (pedido : List Char), ∀ w ∈ palavrasOf pedido,
      (matchQty w = none → (parsePhrase w).1 = 1) ∧
      (∀ q d, matchQty w = some (q, d) →
        (parsePhrase w).1 = q ∧ q = digitsToNat (w.takeWhile pyIsDigit)) ∧
      (1 ≤ (parsePhrase w).1 ∨ ∃ d, matchQty w = some (0, d)) := by
  intro pedido w _
  refine ⟨fun h => by simp [parsePhrase, h], ?_, ?_⟩
  · intro q d h
    refine ⟨by simp [parsePhrase, h], ?_⟩
    unfold matchQty at h
    simp only [] at h
    split at h
    · exact absurd h (by simp)
    · split at h
      · next k hk =>
        rw [Option.some.injEq] at h
        exact (congrArg Prod.fst h).symm
      · exact absurd h (by simp)
  · cases hm : matchQty w with
    | none => exact Or.inl (by simp [parsePhrase, hm])
    | some qd =>
      obtain ⟨q, d⟩ := qd
      cases q with
      | zero => exact Or.inr ⟨d, rfl⟩
      | succ n => exact Or.inl (by simp [parsePhrase, hm])

/-- Witness for claim C9: the phrase of `"2 paes"` has quantity at least 1
(no explicit zero quantity). -/
theorem claim_C9_witness :
    1 ≤ (parsePhrase "2 paes".toList).1 ∨
      ∃ d, matchQty "2 paes".toList = some (0, d) :=
  (claim_C9 "2 paes".toList "2 paes".toList (by decide)).2.2

lemma gcm_pick_mem (w : List Char) :
    ∀ (l : List (List Char)) (acc : Option (List Char)) (nm : List Char),
      l.foldl
        (fun acc x =>
          match acc with
          | none => some x
          | some cur => if better w cur x then some x else some cur) acc = some nm →
      acc = some nm ∨ nm ∈ l := by
  intro l
  induction l with
  | nil => intro acc nm h; exact Or.inl h
  | cons x rest ih =>
    intro acc nm h
    simp only [List.foldl_cons] at h
    rcases acc with _ | cur
    · rcases ih (some x) nm h with h' | h'
      · exact Or.inr (List.mem_cons.mpr (Or.inl (Option.some.inj h').symm))
      · exact Or.inr (List.mem_cons_of_mem _ h')
    · by_cases hb : better w cur x
      · simp only [hb, if_true] at h
        rcases ih _ _ h with h' | h'
        · exact Or.inr (List.mem_cons.mpr (Or.inl (Option.some.inj h').symm))
        · exact Or.inr (List.mem_cons_of_mem _ h')
      · simp only [hb, if_false] at h
        rcases ih _ _ h with h' | h'
        · exact Or.inl h'
        · exact Or.inr (List.mem_cons_of_mem _ h')

lemma gcm_mem {word nm : List Char} {poss : List (List Char)}
    (h : get_close_matches1 word poss = some nm) : nm ∈ poss := by
  unfold get_close_matches1 at h
  rcases gcm_pick_mem word _ none nm h with h' | h'
  · exact absurd h' (by simp)
  · exact List.mem_of_mem_filter h'

lemma mapaLookup_isSome {produtos : List Produto} {nm : List Char}
    (h : nm ∈ produtos.map fun p => normalizar p.1) :
    ∃ p, mapaLookup produtos nm = some p := by
  rw [List.mem_map] at h
  obtain ⟨p, hp, hnm⟩ := h
  unfold mapaLookup
  cases hf : produtos.reverse.find? (fun q => normalizar q.1 == nm) with
  | some q => exact ⟨q, rfl⟩
  | none =>
    exfalso
    have := List.find?_eq_none.mp hf p (List.mem_reverse.mpr hp)
    simp [hnm] at this

lemma length_items_avisos (produtos : List Produto) :
    ∀ ws : List (List Char),
      (ws.filterMap (itemOf (produtos.map fun p => normalizar p.1) produtos)).length +
        (ws.filterMap (avisoOf (produtos.map fun p => normalizar p.1))).length
      = ws.length := by
  intro ws
  induction ws with
  | nil => simp
  | cons w rest ih =>
    simp only [List.filterMap_cons]
    cases hgcm : get_close_matches1 (parsePhrase w).2
        (produtos.map fun p => normalizar p.1) with
    | none =>
      simp only [itemOf, avisoOf, hgcm]
      simp only [List.length_cons, List.length]
      omega
    | some nm =>
      obtain ⟨p, hp⟩ := mapaLookup_isSome (gcm_mem hgcm)
      simp only [itemOf, avisoOf, hgcm, hp, Option.map_some]
      simp only [List.length_cons, List.length]
      omega

lemma takeWhile_all_append {p : Char → Bool} :
    ∀ {xs ys : List Char}, (∀ c ∈ xs, p c = true) →
      (xs ++ ys).takeWhile p = xs ++ ys.takeWhile p := by
  intro xs
  induction xs with
  | nil => intro ys _; simp
  | cons x rest ih =>
    intro ys h
    have hx : p x = true := h x (List.mem_cons_self _ _)
    simp only [List.cons_append, List.takeWhile_cons, hx, if_true]
    rw [ih (fun c hc => h c (List.mem_cons_of_mem _ hc))]

lemma space_not_digit {c : Char} (h : pyIsSpace c = true) : pyIsDigit c = false := by
  unfold pyIsSpace at h
  unfold pyIsDigit
  rcases Bool.or_eq_true_iff.mp h with h' | h'
  · rw [beq_iff_eq] at h'
    subst h'
    decide
  · rw [Bool.and_eq_true_iff] at h'
    obtain ⟨_, h2⟩ := h'
    rw [decide_eq_true_iff] at h2
    simp only [Bool.and_eq_false_iff]
    left
    rw [decide_eq_false_iff_not]
    omega

lemma takeWhile_no_newline {l : List Char} (h : '\n' ∉ l) :
    l.takeWhile (fun c => c ≠ '\n') = l := by
  induction l with
  | nil => rfl
  | cons c rest ih =>
    have hc : c ≠ '\n' := fun he => h (he ▸ List.mem_cons_self _ _)
    have hr : '\n' ∉ rest := fun hm => h (List.mem_cons_of_mem _ hm)
    simp [List.takeWhile_cons, hc, ih hr]
    exact fun x hx hx' => hr (hx' ▸ hx)

lemma btQty_hit {r : List Char} {k : ℕ} {c : Char}
    (hd : (r.drop (k + 1)).head? = some c) (hc : c ≠ '\n') :
    btQty r (k + 1) = some (k + 1) := by
  unfold btQty
  rw [hd]
  simp [hc]

lemma matchQty_leading (ds sp tail : List Char) (hds : ds ≠ [])
    (hdig : ∀ c ∈ ds, pyIsDigit c = true) (hsp : sp ≠ [])
    (hspc : ∀ c ∈ sp, pyIsSpace c = true) (rc : Char) (rest : List Char)
    (htail : tail = rc :: rest) (hrc : pyIsSpace rc = false) (hnl : '\n' ∉ tail) :
    matchQty (ds ++ (sp ++ tail)) = some (digitsToNat ds, tail) := by
  have hrcnl : rc ≠ '\n' := by
    intro he
    exact hnl (htail ▸ (he ▸ List.mem_cons_self rc rest))
  have htw : (ds ++ (sp ++ tail)).takeWhile pyIsDigit = ds := by
    rw [takeWhile_all_append hdig]
    cases sp with
    | nil => exact absurd rfl hsp
    | cons s0 sp' =>
      have h0 : pyIsDigit s0 = false := space_not_digit (hspc s0 (List.mem_cons_self _ _))
      simp [List.takeWhile_cons, h0]
  have hemp : ds.isEmpty = false := by
    cases ds with
    | nil => exact absurd rfl hds
    | cons _ _ => rfl
  have hdrop : (ds ++ (sp ++ tail)).drop ds.length = sp ++ tail :=
    List.drop_left ds (sp ++ tail)
  have hws : (sp ++ tail).takeWhile pyIsSpace = sp := by
    rw [takeWhile_all_append hspc, htail]
    simp [List.takeWhile_cons, hrc]
  have hdt : (sp ++ tail).drop sp.length = tail := List.drop_left sp tail
  have hbt : btQty (sp ++ tail) sp.length = some sp.length := by
    cases sp with
    | nil => exact absurd rfl hsp
    | cons s0 sp' =>
      have hd : (((s0 :: sp') ++ tail).drop (sp'.length + 1)).head? = some rc := by
        have h1 : ((s0 :: sp') ++ tail).drop (sp'.length + 1) = tail := by
          simp
        rw [h1, htail]
        rfl
      simpa using btQty_hit hd hrcnl
  unfold matchQty
  simp only [htw, hemp, Bool.false_eq_true, if_false, hdrop, hws, hbt, hdt,
    takeWhile_no_newline hnl]

lemma matchQty_no_leading_digit (c : Char) (rest : List Char)
    (hc : pyIsDigit c = false) : matchQty (c :: rest) = none := by
  unfold matchQty
  simp [List.takeWhile_cons, hc]

/-- Claim C7: the order tokenizer splits the normalized text on commas and
on the conjunction `" e "`, trims fragments and discards empty ones
(concrete split shown); every kept fragment is non-empty; a fragment of
the form digits, whitespace, remainder takes the parsed leading integer as
quantity and the stripped remainder as description; a fragment not
starting with a digit (in particular one with only a trailing integer)
defaults to quantity 1 with the whole fragment as description; and no
fragment is dropped: every fragment contributes exactly one line item or
one unmatched entry. -/
theorem claim_C7 :
    (palavrasOf "2 paes, 1 bolo e 3 cafes".toList
      = ["2 paes".toList, "1 bolo".toList, "3 cafes".toList]) ∧
    (∀ (pedido : List Char), ∀ w ∈ palavrasOf pedido, w ≠ []) ∧
    (∀ (ds sp tail : List Char), ds ≠ [] → (∀ c ∈ ds, pyIsDigit c = true) →
      sp ≠ [] → (∀ c ∈ sp, pyIsSpace c = true) →
      ∀ (rc : Char) (rest : List Char), tail = rc :: rest → pyIsSpace rc = false →
        '\n' ∉ tail →
        parsePhrase (ds ++ (sp ++ tail)) = (digitsToNat ds, pyStrip tail)) ∧
    (∀ (c : Char) (rest : List Char), pyIsDigit c = false →
      parsePhrase (c :: rest) = (1, c :: rest)) ∧
    (∀ (pedido : List Char) (produtos : List Produto),
      (calcular_pedido_completo pedido produtos).2.1.length +
        (calcular_pedido_completo pedido produtos).2.2.length
      = (palavrasOf pedido).length) := by
  refine ⟨by decide, ?_, ?_, ?_, ?_⟩
  · intro pedido w hw
    have := List.of_mem_filter hw
    simpa using this
  · intro ds sp tail hds hdig hsp hspc rc rest htail hrc hnl
    unfold parsePhrase
    rw [matchQty_leading ds sp tail hds hdig hsp hspc rc rest htail hrc hnl]
  · intro c rest hc
    unfold parsePhrase
    rw [matchQty_no_leading_digit c rest hc]
  · intro pedido produtos
    simp only [calcular_pedido_completo, calcularCent_eq]
    exact length_items_avisos produtos (palavrasOf pedido)

/-- Witness for claim C7: the fragment `"12 paes"` parses to quantity 12
and description `"paes"`. -/
theorem claim_C7_witness : parsePhrase "12 paes".toList = (12, "paes".toList) := by
  have h := claim_C7.2.2.1 "12".toList " ".toList "paes".toList (by decide) (by decide)
    (by decide) (by decide) 'p' "aes".toList (by decide) (by decide) (by decide)
  have e1 : "12".toList ++ (" ".toList ++ "paes".toList) = "12 paes".toList := by decide
  rw [e1] at h
  rw [h]
  decide

lemma precoQ_add (a b : ℕ) : precoQ (a + b) = precoQ a + precoQ b := by
  unfold precoQ
  push_cast
  ring

lemma sum_precoQ (items : List ItemPedido) :
    (items.map (fun it => precoQ it.subtotal)).sum
      = precoQ ((items.map ItemPedido.subtotal).sum) := by
  induction items with
  | nil => simp [precoQ]
  | cons it rest ih =>
    simp only [List.map_cons, List.sum_cons, ih, precoQ_add]

/-- Claim C5: the returned total is the sum of the line-item subtotals
rounded to two decimal places exactly once, after summing; each line
item's subtotal is its catalog unit price times its quantity; and (prices
being whole numbers of centavos, the exact two-decimal arithmetic) each
subtotal is already two-decimal, so rounding a subtotal — Python's
`round(p*q, 2)` — is the identity on it. -/
theorem claim_C5 :
    ∀ (pedido : List Char) (produtos : List Produto),
      (calcular_pedido_completo pedido produtos).1
        = round2 ((((calcular_pedido_completo pedido produtos).2.1).map
            (fun it => precoQ it.subtotal)).sum) ∧
      (∀ it ∈ (calcular_pedido_completo pedido produtos).2.1,
        ∃ preco : ℕ, (it.nome, preco) ∈ produtos ∧ it.subtotal = preco * it.qtd ∧
          precoQ it.subtotal = precoQ preco * it.qtd) ∧
      (∀ it ∈ (calcular_pedido_completo pedido produtos).2.1,
        round2 (precoQ it.subtotal) = precoQ it.subtotal) := by
  intro pedido produtos
  refine ⟨?_, ?_, fun it _ => round2_precoQ it.subtotal⟩
  · simp only [calcular_pedido_completo, calcularCent_eq]
    rw [sum_precoQ]
  · intro it hit
    simp only [calcular_pedido_completo, calcularCent_eq] at hit
    obtain ⟨w, _, hitem⟩ := List.mem_filterMap.mp hit
    unfold itemOf at hitem
    split at hitem
    · next nm hgcm =>
      cases hlk : mapaLookup produtos nm with
      | some p =>
        rw [hlk] at hitem
        simp only [Option.map_some', Option.some.injEq] at hitem
        have hpmem : p ∈ produtos := by
          have h1 := List.mem_of_find?_eq_some hlk
          exact List.mem_reverse.mp h1
        refine ⟨p.2, ?_, ?_, ?_⟩
        · rw [← hitem]
          simpa [Prod.mk.eta] using hpmem
        · rw [← hitem]
        · rw [← hitem]
          show precoQ (p.2 * (parsePhrase w).1) = precoQ p.2 * ((parsePhrase w).1 : ℚ)
          unfold precoQ
          push_cast
          ring
      | none =>
        rw [hlk] at hitem
        simp at hitem
    · exact absurd hitem (by simp)

set_option maxRecDepth 400000 in
/-- Witness for claim C5: the subtotal of the single line item of the
order `"1 bolo inteiro chocolate"` is already two-decimal, so rounding it
changes nothing. -/
theorem claim_C5_witness : round2 (precoQ (3800 : ℕ)) = precoQ 3800 :=
  (claim_C5 "1 bolo inteiro chocolate".toList catalogoExemplo).2.2
    ⟨1, "Bolo Inteiro Chocolate".toList, 3800⟩ (by decide)

lemma okCell_spec {a b : List Char} {alo blo i j : ℕ}
    (h : okCell a b alo blo i j = true) :
    alo ≤ i ∧ blo ≤ j ∧ i < a.length ∧ j < b.length ∧
      a.getD i 'a' = b.getD j 'a' := by
  unfold okCell at h
  simp only [Bool.and_eq_true, decide_eq_true_eq, beq_iff_eq] at h
  tauto

lemma runLen_sound (a b : List Char) (alo blo : ℕ) :
    ∀ i j, runLen a b alo blo i j ≠ 0 →
      alo + runLen a b alo blo i j ≤ i + 1 ∧
      blo + runLen a b alo blo i j ≤ j + 1 ∧
      ∀ t < runLen a b alo blo i j,
        i - t < a.length ∧ j - t < b.length ∧
        a.getD (i - t) 'a' = b.getD (j - t) 'a' := by
  intro i j
  induction i, j using runLen.induct a b alo blo with
  | case1 j hok =>
    intro _
    obtain ⟨h1, h2, h3, h4, h5⟩ := okCell_spec hok
    rw [runLen, if_pos hok]
    refine ⟨by omega, by omega, ?_⟩
    intro t ht
    interval_cases t
    simp only [Nat.sub_zero]
    exact ⟨h3, h4, h5⟩
  | case2 j hok =>
    intro hk
    rw [runLen, if_neg hok] at hk
    exact absurd rfl hk
  | case3 i hok =>
    intro _
    obtain ⟨h1, h2, h3, h4, h5⟩ := okCell_spec hok
    rw [runLen, if_pos hok]
    refine ⟨by omega, by omega, ?_⟩
    intro t ht
    interval_cases t
    simp only [Nat.sub_zero]
    exact ⟨h3, h4, h5⟩
  | case4 i hok =>
    intro hk
    rw [runLen, if_neg hok] at hk
    exact absurd rfl hk
  | case5 i j hok ih =>
    intro _
    obtain ⟨h1, h2, h3, h4, h5⟩ := okCell_spec hok
    rw [runLen, if_pos hok]
    by_cases hz : runLen a b alo blo i j = 0
    · rw [hz]
      refine ⟨by omega, by omega, ?_⟩
      intro t ht
      interval_cases t
      simp only [Nat.sub_zero]
      exact ⟨h3, h4, h5⟩
    · obtain ⟨ha1, ha2, ha3⟩ := ih hz
      refine ⟨by omega, by omega, ?_⟩
      intro t ht
      cases t with
      | zero =>
        simp only [Nat.sub_zero]
        exact ⟨h3, h4, h5⟩
      | succ u =>
        have hu : u < runLen a b alo blo i j := by omega
        have hres := ha3 u hu
        have e1 : i + 1 - (u + 1) = i - u := by omega
        have e2 : j + 1 - (u + 1) = j - u := by omega
        rw [e1, e2]
        exact hres
  | case6 i j hok =>
    intro hk
    rw [runLen, if_neg hok] at hk
    exact absurd rfl hk

lemma flmScan_sound (a b : List Char) (alo ahi blo bhi : ℕ) :
    SoundBlock a b alo ahi blo bhi (flmScan a b alo ahi blo bhi) ∧
      ((flmScan a b alo ahi blo bhi).2.2 = 0 →
        flmScan a b alo ahi blo bhi = (alo, blo, 0)) := by
  simp only [flmScan]
  set kmax := (List.range' alo (ahi - alo)).foldl
    (fun m i => max m (rowMax a b alo blo bhi i)) 0 with hkmax
  split
  · exact ⟨fun h => absurd rfl h, fun _ => rfl⟩
  · next hk0 =>
    split
    · next i hfi =>
      split
      · next j hfj =>
        have hi_mem : i ∈ List.range' alo (ahi - alo) := List.mem_of_find?_eq_some hfi
        have hj_mem : j ∈ List.range' blo (bhi - blo) := List.mem_of_find?_eq_some hfj
        have hi_rg : alo ≤ i ∧ i < alo + (ahi - alo) := by
          rw [List.mem_range'] at hi_mem
          obtain ⟨k, hk1, hk2⟩ := hi_mem
          omega
        have hj_rg : blo ≤ j ∧ j < blo + (bhi - blo) := by
          rw [List.mem_range'] at hj_mem
          obtain ⟨k, hk1, hk2⟩ := hj_mem
          omega
        have hrl : runLen a b alo blo i j = kmax := by
          have := List.find?_some hfj
          simpa using this
        have hrl0 : runLen a b alo blo i j ≠ 0 := by rw [hrl]; exact hk0
        obtain ⟨hs1, hs2, hs3⟩ := runLen_sound a b alo blo i j hrl0
        rw [hrl] at hs1 hs2 hs3
        constructor
        · intro _
          dsimp only
          refine ⟨by omega, by omega, by omega, by omega, ?_⟩
          intro s hs
          have ht : kmax - 1 - s < kmax := by omega
          obtain ⟨hv1, hv2, hv3⟩ := hs3 (kmax - 1 - s) ht
          have e1 : i - (kmax - 1 - s) = i + 1 - kmax + s := by omega
          have e2 : j - (kmax - 1 - s) = j + 1 - kmax + s := by omega
          rw [e1] at hv1 hv3
          rw [e2] at hv2 hv3
          exact ⟨hv1, hv2, hv3⟩
        · intro h
          exact absurd h hk0
      · exact ⟨fun h => absurd rfl h, fun _ => rfl⟩
    · exact ⟨fun h => absurd rfl h, fun _ => rfl⟩

lemma extLeft_sound (a b : List Char) (alo ahi blo bhi : ℕ) :
    ∀ (fuel : ℕ) (t : ℕ × ℕ × ℕ),
      SoundBlock a b alo ahi blo bhi t → (t.2.2 = 0 → t = (alo, blo, 0)) →
      SoundBlock a b alo ahi blo bhi (extLeft a b alo blo fuel t) ∧
        ((extLeft a b alo blo fuel t).2.2 = 0 →
          extLeft a b alo blo fuel t = (alo, blo, 0)) := by
  intro fuel
  induction fuel with
  | zero => intro t hsb hz; exact ⟨hsb, hz⟩
  | succ n ih =>
    intro t hsb hz
    obtain ⟨bi, bj, bs⟩ := t
    rw [extLeft]
    split
    · next hcond =>
      obtain ⟨hc1, hc2, hc3, hc4, hc5⟩ := hcond
      have hbs : bs ≠ 0 := by
        intro h0
        have := hz h0
        simp only [Prod.mk.injEq] at this
        omega
      have hsb' := hsb hbs
      dsimp only at hsb'
      obtain ⟨ho1, ho2, ho3, ho4, ho5⟩ := hsb'
      refine ih (bi - 1, bj - 1, bs + 1) ?_ (by simp)
      intro _
      dsimp only
      refine ⟨by omega, by omega, by omega, by omega, ?_⟩
      intro s hs
      cases s with
      | zero =>
        simp only [Nat.add_zero]
        exact ⟨hc3, hc4, hc5⟩
      | succ u =>
        have hu : u < bs := by omega
        obtain ⟨hv1, hv2, hv3⟩ := ho5 u hu
        have e1 : bi - 1 + (u + 1) = bi + u := by omega
        have e2 : bj - 1 + (u + 1) = bj + u := by omega
        rw [e1, e2]
        exact ⟨hv1, hv2, hv3⟩
    · exact ⟨hsb, hz⟩

lemma extRight_sound (a b : List Char) (alo ahi blo bhi : ℕ) :
    ∀ (fuel : ℕ) (t : ℕ × ℕ × ℕ),
      SoundBlock a b alo ahi blo bhi t → (t.2.2 = 0 → t = (alo, blo, 0)) →
      SoundBlock a b alo ahi blo bhi (extRight a b ahi bhi fuel t) := by
  intro fuel
  induction fuel with
  | zero => intro t hsb _; exact hsb
  | succ n ih =>
    intro t hsb hz
    obtain ⟨bi, bj, bs⟩ := t
    rw [extRight]
    split
    · next hcond =>
      obtain ⟨hc1, hc2, hc3, hc4, hc5⟩ := hcond
      refine ih (bi, bj, bs + 1) ?_ (by simp)
      intro _
      dsimp only
      by_cases hbs : bs = 0
      · subst hbs
        have h0 := hz rfl
        simp only [Prod.mk.injEq] at h0
        obtain ⟨e1, e2, _⟩ := h0
        subst e1
        subst e2
        refine ⟨le_refl _, by omega, le_refl _, by omega, ?_⟩
        intro s hs
        interval_cases s
        simp only [Nat.add_zero]
        exact ⟨hc3, hc4, hc5⟩
      · have hsb' := hsb hbs
        dsimp only at hsb'
        obtain ⟨ho1, ho2, ho3, ho4, ho5⟩ := hsb'
        refine ⟨ho1, by omega, ho3, by omega, ?_⟩
        intro s hs
        by_cases hsb' : s < bs
        · exact ho5 s hsb'
        · have : s = bs := by omega
          subst this
          exact ⟨hc3, hc4, hc5⟩
    · exact hsb

lemma find_longest_match_sound (a b : List Char) (alo ahi blo bhi : ℕ) :
    SoundBlock a b alo ahi blo bhi (find_longest_match a b alo ahi blo bhi) := by
  simp only [find_longest_match]
  obtain ⟨h1, h2⟩ := flmScan_sound a b alo ahi blo bhi
  obtain ⟨h3, h4⟩ := extLeft_sound a b alo ahi blo bhi
    (flmScan a b alo ahi blo bhi).1 (flmScan a b alo ahi blo bhi) h1 h2
  exact extRight_sound a b alo ahi blo bhi ahi _ h3 h4

lemma min_add_min_le (a b c d : ℕ) : min a b + min c d ≤ min (a + c) (b + d) :=
  le_min (Nat.add_le_add (min_le_left _ _) (min_le_left _ _))
    (Nat.add_le_add (min_le_right _ _) (min_le_right _ _))

lemma quickMatches_eq_over (x u : List Char) (S : Finset Char)
    (hS : (x ++ u).toFinset ⊆ S) :
    quickMatches x u = ∑ c in S, min (x.count c) (u.count c) := by
  unfold quickMatches
  refine Finset.sum_subset hS ?_
  intro c _ hc
  rw [List.mem_toFinset, List.mem_append] at hc
  push_neg at hc
  rw [List.count_eq_zero_of_not_mem hc.1]
  simp

lemma quickMatches_superadd (x y u v : List Char) :
    quickMatches x u + quickMatches y v ≤ quickMatches (x ++ y) (u ++ v) := by
  set S := ((x ++ y) ++ (u ++ v)).toFinset with hS
  have hxu : (x ++ u).toFinset ⊆ S := by
    intro c hc
    rw [List.mem_toFinset, List.mem_append] at hc
    rw [hS, List.mem_toFinset]
    simp only [List.mem_append]
    tauto
  have hyv : (y ++ v).toFinset ⊆ S := by
    intro c hc
    rw [List.mem_toFinset, List.mem_append] at hc
    rw [hS, List.mem_toFinset]
    simp only [List.mem_append]
    tauto
  rw [quickMatches_eq_over x u S hxu, quickMatches_eq_over y v S hyv,
    quickMatches_eq_over (x ++ y) (u ++ v) S (by rw [hS])]
  rw [← Finset.sum_add_distrib]
  refine Finset.sum_le_sum ?_
  intro c _
  simp only [List.count_append]
  exact min_add_min_le _ _ _ _

lemma list_toFinset_sum_count (l : List Char) :
    ∑ c in l.toFinset, l.count c = l.length := by
  simp

lemma quickMatches_self (s : List Char) : quickMatches s s = s.length := by
  unfold quickMatches
  have h1 : (s ++ s).toFinset = s.toFinset := by
    rw [List.toFinset_append, Finset.union_self]
  rw [h1]
  simp only [min_self]
  exact list_toFinset_sum_count s

lemma quickMatches_le_left (x u : List Char) : quickMatches x u ≤ x.length := by
  unfold quickMatches
  calc ∑ c in (x ++ u).toFinset, min (x.count c) (u.count c)
      ≤ ∑ c in (x ++ u).toFinset, x.count c :=
        Finset.sum_le_sum (fun c _ => min_le_left _ _)
    _ = ∑ c in x.toFinset, x.count c := by
        refine (Finset.sum_subset ?_ ?_).symm
        · intro c hc
          rw [List.mem_toFinset] at hc
          rw [List.mem_toFinset, List.mem_append]
          exact Or.inl hc
        · intro c _ hc
          rw [List.mem_toFinset] at hc
          exact List.count_eq_zero_of_not_mem hc
    _ = x.length := list_toFinset_sum_count x

lemma quickMatches_le_right (x u : List Char) : quickMatches x u ≤ u.length := by
  unfold quickMatches
  calc ∑ c in (x ++ u).toFinset, min (x.count c) (u.count c)
      ≤ ∑ c in (x ++ u).toFinset, u.count c :=
        Finset.sum_le_sum (fun c _ => min_le_right _ _)
    _ = ∑ c in u.toFinset, u.count c := by
        refine (Finset.sum_subset ?_ ?_).symm
        · intro c hc
          rw [List.mem_toFinset] at hc
          rw [List.mem_toFinset, List.mem_append]
          exact Or.inr hc
        · intro c _ hc
          rw [List.mem_toFinset] at hc
          exact List.count_eq_zero_of_not_mem hc
    _ = u.length := list_toFinset_sum_count u

lemma slice_decomp (l : List Char) (lo m hi : ℕ) (h1 : lo ≤ m) (h2 : m ≤ hi) :
    (l.drop lo).take (hi - lo)
      = (l.drop lo).take (m - lo) ++ (l.drop m).take (hi - m) := by
  have e : hi - lo = (m - lo) + (hi - m) := by omega
  rw [e, List.take_add]
  congr 1
  have e2 : (l.drop lo).drop (m - lo) = l.drop m := by
    rw [List.drop_drop]
    congr 1
    omega
  rw [e2]

lemma slice_eq_of_match {a b : List Char} {bi bj k : ℕ}
    (h : ∀ s < k, bi + s < a.length ∧ bj + s < b.length ∧
      a.getD (bi + s) 'a' = b.getD (bj + s) 'a') :
    (a.drop bi).take k = (b.drop bj).take k ∧ ((a.drop bi).take k).length = k := by
  rcases Nat.eq_zero_or_pos k with hk | hk
  · subst hk
    simp
  have hka : bi + k ≤ a.length := by
    have := (h (k - 1) (by omega)).1
    omega
  have hkb : bj + k ≤ b.length := by
    have := (h (k - 1) (by omega)).2.1
    omega
  have hla : ((a.drop bi).take k).length = k := by
    simp only [List.length_take, List.length_drop]
    omega
  have hlb : ((b.drop bj).take k).length = k := by
    simp only [List.length_take, List.length_drop]
    omega
  refine ⟨List.ext_getElem (by rw [hla, hlb]) ?_, hla⟩
  intro n h1 h2
  have hn : n < k := by rwa [hla] at h1
  obtain ⟨hv1, hv2, hv3⟩ := h n hn
  rw [List.getElem_take, List.getElem_drop, List.getElem_take, List.getElem_drop]
  rw [List.getD_eq_getElem a 'a' hv1, List.getD_eq_getElem b 'a' hv2] at hv3
  exact hv3

lemma msFuel_le_quickMatches (a b : List Char) :
    ∀ (fuel alo ahi blo bhi : ℕ),
      msFuel a b fuel alo ahi blo bhi
        ≤ quickMatches ((a.drop alo).take (ahi - alo))
            ((b.drop blo).take (bhi - blo)) := by
  intro fuel
  induction fuel with
  | zero => intro alo ahi blo bhi; simp [msFuel]
  | succ n ih =>
    intro alo ahi blo bhi
    simp only [msFuel]
    rcases hfl : find_longest_match a b alo ahi blo bhi with ⟨i, j, k⟩
    dsimp only
    by_cases hk : k = 0
    · simp [hk]
    · rw [if_neg hk]
      have hsound := find_longest_match_sound a b alo ahi blo bhi
      rw [hfl] at hsound
      have hs := hsound (by dsimp only; exact hk)
      dsimp only at hs
      obtain ⟨hb1, hb2, hb3, hb4, hb5⟩ := hs
      have ekA : i + k - i = k := by omega
      have ekB : j + k - j = k := by omega
      have hdecA : (a.drop alo).take (ahi - alo)
          = (a.drop alo).take (i - alo) ++
            ((a.drop i).take k ++ (a.drop (i + k)).take (ahi - (i + k))) := by
        rw [slice_decomp a alo i ahi (by omega) (by omega)]
        congr 1
        rw [slice_decomp a i (i + k) ahi (by omega) (by omega), ekA]
      have hdecB : (b.drop blo).take (bhi - blo)
          = (b.drop blo).take (j - blo) ++
            ((b.drop j).take k ++ (b.drop (j + k)).take (bhi - (j + k))) := by
        rw [slice_decomp b blo j bhi (by omega) (by omega)]
        congr 1
        rw [slice_decomp b j (j + k) bhi (by omega) (by omega), ekB]
      rw [hdecA, hdecB]
      obtain ⟨hmid_eq, hmid_len⟩ := slice_eq_of_match hb5
      have hmid : quickMatches ((a.drop i).take k) ((b.drop j).take k) = k := by
        rw [hmid_eq, quickMatches_self]
        rw [← hmid_eq, hmid_len]
      calc msFuel a b n alo i blo j + k + msFuel a b n (i + k) ahi (j + k) bhi
          ≤ quickMatches ((a.drop alo).take (i - alo)) ((b.drop blo).take (j - blo)) +
              quickMatches ((a.drop i).take k) ((b.drop j).take k) +
              quickMatches ((a.drop (i + k)).take (ahi - (i + k)))
                ((b.drop (j + k)).take (bhi - (j + k))) := by
            have h1 := ih alo i blo j
            have h2 := ih (i + k) ahi (j + k) bhi
            omega
        _ ≤ quickMatches ((a.drop alo).take (i - alo)) ((b.drop blo).take (j - blo)) +
              quickMatches ((a.drop i).take k ++ (a.drop (i + k)).take (ahi - (i + k)))
                ((b.drop j).take k ++ (b.drop (j + k)).take (bhi - (j + k))) := by
            have h3 := quickMatches_superadd ((a.drop i).take k)
              ((a.drop (i + k)).take (ahi - (i + k))) ((b.drop j).take k)
              ((b.drop (j + k)).take (bhi - (j + k)))
            omega
        _ ≤ quickMatches
              ((a.drop alo).take (i - alo) ++
                ((a.drop i).take k ++ (a.drop (i + k)).take (ahi - (i + k))))
              ((b.drop blo).take (j - blo) ++
                ((b.drop j).take k ++ (b.drop (j + k)).take (bhi - (j + k)))) :=
            quickMatches_superadd _ _ _ _

lemma matchedSize_le_quickMatches (a b : List Char) :
    matchedSize a b ≤ quickMatches a b := by
  have h := msFuel_le_quickMatches a b (a.length + 1) 0 a.length 0 b.length
  simpa using h

lemma ratioGate_true_of_eq {x w : List Char} (h : ratioSM x w = 3 / 5) :
    ratioGate x w = true := by
  have hT : x.length + w.length ≠ 0 := by
    intro h0
    rw [ratioSM, if_pos h0] at h
    norm_num at h
  have h10 : 10 * matchedSize x w = 3 * (x.length + w.length) := by
    rw [ratioSM, if_neg hT] at h
    have hTQ : ((x.length + w.length : ℕ) : ℚ) ≠ 0 := by exact_mod_cast hT
    rw [div_eq_iff hTQ] at h
    have h5 : (10 : ℚ) * (matchedSize x w : ℕ) = 3 * ((x.length + w.length : ℕ) : ℚ) := by
      linarith
    exact_mod_cast h5
  have hqm : matchedSize x w ≤ quickMatches x w := matchedSize_le_quickMatches x w
  have hmin : quickMatches x w ≤ min x.length w.length :=
    le_min (quickMatches_le_left x w) (quickMatches_le_right x w)
  unfold ratioGate
  simp only [Bool.and_eq_true, decide_eq_true_eq]
  omega

lemma ratioGate_false_of_lt {x w : List Char} (h : ratioSM x w < 3 / 5) :
    ratioGate x w = false := by
  have hT : x.length + w.length ≠ 0 := by
    intro h0
    rw [ratioSM, if_pos h0] at h
    norm_num at h
  have h10 : ¬ 3 * (x.length + w.length) ≤ 10 * matchedSize x w := by
    intro hle
    have hTQ : (0 : ℚ) < ((x.length + w.length : ℕ) : ℚ) := by
      exact_mod_cast Nat.pos_of_ne_zero hT
    rw [ratioSM, if_neg hT] at h
    rw [div_lt_div_iff₀ hTQ (by norm_num : (0 : ℚ) < 5)] at h
    have hleQ : (3 : ℚ) * ((x.length + w.length : ℕ) : ℚ) ≤ 10 * (matchedSize x w : ℕ) := by
      exact_mod_cast hle
    linarith
  rw [Bool.eq_false_iff]
  intro htrue
  unfold ratioGate at htrue
  simp only [Bool.and_eq_true, decide_eq_true_eq] at htrue
  exact h10 htrue.2

lemma gcm_fold_isSome (w : List Char) :
    ∀ (l : List (List Char)) (acc : Option (List Char)),
      (acc.isSome = true ∨ l ≠ []) →
      (l.foldl
        (fun acc x =>
          match acc with
          | none => some x
          | some cur => if better w cur x then some x else some cur) acc).isSome
        = true := by
  intro l
  induction l with
  | nil =>
    intro acc h
    rcases h with h | h
    · exact h
    · exact absurd rfl h
  | cons x rest ih =>
    intro acc h
    simp only [List.foldl_cons]
    apply ih
    left
    rcases acc with _ | cur
    · simp
    · by_cases hb : better w cur x <;> simp [hb]

/-- Claim C4: the fuzzy matcher returns the best catalog candidate at or
above the 0.6 cutoff: a description whose similarity (`SequenceMatcher`
ratio) to some candidate is exactly `3/5 = 0.6` gets a match, and a
description strictly below `0.6` against every candidate gets none. -/
theorem claim_C4 :
    ∀ (desc : List Char) (names : List (List Char)),
      ((∃ nm ∈ names, ratioSM nm desc = 3 / 5) →
        (get_close_matches1 desc names).isSome = true) ∧
      ((∀ nm ∈ names, ratioSM nm desc < 3 / 5) →
        get_close_matches1 desc names = none) := by
  intro desc names
  constructor
  · rintro ⟨nm, hmem, hr⟩
    unfold get_close_matches1
    apply gcm_fold_isSome
    right
    intro hnil
    have hm : nm ∈ names.filter (fun x => ratioGate x desc) :=
      List.mem_filter.mpr ⟨hmem, ratioGate_true_of_eq hr⟩
    rw [hnil] at hm
    cases hm
  · intro hall
    unfold get_close_matches1
    have hnil : names.filter (fun x => ratioGate x desc) = [] := by
      rw [List.filter_eq_nil_iff]
      intro x hx
      rw [ratioGate_false_of_lt (hall x hx)]
      simp
    rw [hnil]
    rfl

set_option maxRecDepth 400000 in
/-- Witness for claim C4: `"abc"` has similarity exactly `3/5` to
`"abcdefg"` (matched size 3, lengths 7 + 3) and is matched; it is below
`3/5` against `"xyz"` alone and is not. -/
theorem claim_C4_witness :
    (get_close_matches1 "abc".toList ["abcdefg".toList]).isSome = true ∧
      get_close_matches1 "abc".toList ["xyz".toList] = none := by
  have hr1 : ratioSM "abcdefg".toList "abc".toList = 3 / 5 := by
    rw [ratioSM, if_neg (by decide)]
    rw [show matchedSize "abcdefg".toList "abc".toList = 3 from by decide]
    rw [show "abcdefg".toList.length + "abc".toList.length = 10 from by decide]
    norm_num
  have hr2 : ratioSM "xyz".toList "abc".toList < 3 / 5 := by
    rw [ratioSM, if_neg (by decide)]
    rw [show matchedSize "xyz".toList "abc".toList = 0 from by decide]
    rw [show "xyz".toList.length + "abc".toList.length = 6 from by decide]
    norm_num
  constructor
  · exact (claim_C4 "abc".toList ["abcdefg".toList]).1
      ⟨"abcdefg".toList, List.mem_singleton.mpr rfl, hr1⟩
  · refine (claim_C4 "abc".toList ["xyz".toList]).2 ?_
    intro nm hnm
    rw [List.mem_singleton] at hnm
    rw [hnm]
    exact hr2
